import Mathlib

/-!
Verification of the subnet partitioning and resource-construction logic of
the `jen20-pulumi-aws-vpc` Go package.

The repository's `main.go` orchestrates AWS resource creation around a pure
core, `SubnetDistributor(baseCidr, azCount)`, which carves a base IPv4 CIDR
block into per-availability-zone private and public subnet blocks.  The
orchestration code (`resourceTags`, `NewVpc`) is embedded from `main.go`;
the partitioner itself is not among the available source files, so it is
modelled from the specification's algorithm description.
-/

/-! ## IPv4 CIDR parsing -/

/-- Splits a character list on a separator character.  `splitOnChar '.' "a.b"`
yields `["a", "b"]`; an empty input yields one empty field, matching the
field-splitting behaviour needed for dotted-quad parsing. -/
def splitOnChar (sep : Char) : List Char → List (List Char)
  | [] => [[]]
  | c :: cs =>
    let rest := splitOnChar sep cs
    if c = sep then [] :: rest
    else
      match rest with
      | [] => [[c]]
      | r :: rs => (c :: r) :: rs

/-- Numeric value of a decimal digit character, `none` for non-digits. -/
def digitVal (c : Char) : Option Nat :=
  if '0' ≤ c ∧ c ≤ '9' then some (c.toNat - '0'.toNat) else none

/-- Parses a non-empty all-digit character list as a decimal natural number. -/
def parseDecimal : List Char → Option Nat
  | [] => none
  | cs => cs.foldlM (fun acc c => (digitVal c).map (fun d => 10 * acc + d)) 0

/-- An IPv4 network block: a 32-bit base address together with a prefix
length.  Blocks are stored in canonical form (host bits zero). -/
structure AddressBlock where
  addr : Nat
  prefixLen : Nat
deriving DecidableEq

/-- Parses a dotted-quad IPv4 address (`A.B.C.D`, each octet `0–255`) into
its 32-bit numeric value. -/
def parseIPv4 (cs : List Char) : Option Nat :=
  match (splitOnChar '.' cs).mapM parseDecimal with
  | some [a, b, c, d] =>
    if a ≤ 255 ∧ b ≤ 255 ∧ c ≤ 255 ∧ d ≤ 255 then
      some (((a * 256 + b) * 256 + c) * 256 + d)
    else none
  | _ => none

/-- Modelled from the spec: `baseCidr` must parse as a valid IPv4 CIDR
literal `A.B.C.D/p` with `0 ≤ p ≤ 32` (the Go parser, `net.ParseCIDR`, is
part of the standard library and not of the available sources).  The parsed
block is canonicalized by masking away host bits, per the spec's
`AddressBlock` invariant. -/
def parseCidr (s : String) : Option AddressBlock :=
  match splitOnChar '/' s.data with
  | [ipPart, lenPart] =>
    match parseIPv4 ipPart, parseDecimal lenPart with
    | some a, some p =>
      if p ≤ 32 then some ⟨a / 2 ^ (32 - p) * 2 ^ (32 - p), p⟩ else none
    | _, _ => none
  | _ => none

/-! ## Smallest sufficient number of extra subdivision bits -/

/-- Linear search for the least exponent `e ≥ start` with `m ≤ 2 ^ e`,
bounded by `fuel` steps (returns `start + fuel` when the fuel runs out). -/
def searchExtra (m : Nat) : Nat → Nat → Nat
  | 0, e => e
  | fuel + 1, e => if m ≤ 2 ^ e then e else searchExtra m fuel (e + 1)

/-- Modelled from the spec: the smallest integer `extraBits` such that
`2 ^ extraBits ≥ m` (i.e. `ceil(log2 m)` for `m ≥ 1`). -/
def extraBitsFor (m : Nat) : Nat :=
  searchExtra m m 0

theorem searchExtra_le_self (m : Nat) :
    ∀ fuel e, m ≤ 2 ^ (e + fuel) → m ≤ 2 ^ searchExtra m fuel e := by
  intro fuel
  induction fuel with
  | zero => intro e h; simpa using h
  | succ k ih =>
    intro e h
    simp only [searchExtra]
    by_cases hle : m ≤ 2 ^ e
    · simp [hle]
    · have : m ≤ 2 ^ (e + 1 + k) := by
        have : e + 1 + k = e + (k + 1) := by omega
        rw [this]; exact h
      simpa [hle] using ih (e + 1) this

theorem searchExtra_min (m : Nat) :
    ∀ fuel e, (∀ k, k < e → 2 ^ k < m) →
      ∀ e', m ≤ 2 ^ e' → searchExtra m fuel e ≤ e' := by
  intro fuel
  induction fuel with
  | zero =>
    intro e hinv e' he'
    simp only [searchExtra]
    by_contra hlt
    exact absurd he' (Nat.not_le_of_lt (hinv e' (by omega)))
  | succ k ih =>
    intro e hinv e' he'
    simp only [searchExtra]
    by_cases hle : m ≤ 2 ^ e
    · simp only [hle, if_true]
      by_contra hlt
      exact absurd he' (Nat.not_le_of_lt (hinv e' (by omega)))
    · simp only [hle, if_false]
      refine ih (e + 1) ?_ e' he'
      intro j hj
      by_cases hje : j = e
      · subst hje; omega
      · exact hinv j (by omega)

theorem extraBitsFor_spec (m : Nat) :
    m ≤ 2 ^ extraBitsFor m ∧ ∀ e, m ≤ 2 ^ e → extraBitsFor m ≤ e := by
  constructor
  · exact searchExtra_le_self m m 0 (by simpa using Nat.le_of_lt (Nat.lt_two_pow m))
  · exact searchExtra_min m m 0 (fun k hk => absurd hk (by omega))

/-- `extraBitsFor` agrees with the ceiling base-2 logarithm. -/
theorem extraBitsFor_eq_clog (m : Nat) : extraBitsFor m = Nat.clog 2 m := by
  obtain ⟨hge, hmin⟩ := extraBitsFor_spec m
  refine Nat.le_antisymm ?_ ?_
  · exact hmin _ (Nat.le_pow_clog (by norm_num) m)
  · exact (Nat.le_pow_iff_clog_le (by norm_num)).mp hge

/-! ## The subnet partitioner -/

/-- Failure kinds of the partitioner: malformed base CIDR, non-positive
zone count, or insufficient address space (the latter carrying the requested
zone count and the base block's prefix length, per the spec's requirement
that the error name the requested zone count and the available space). -/
inductive PartitionError where
  | invalidAddress : PartitionError
  | invalidArgument : PartitionError
  | capacity : Int → Nat → PartitionError
deriving DecidableEq

/-- Two ordered sequences of blocks, index-aligned with the zone index. -/
structure PartitionResult where
  privateBlocks : List AddressBlock
  publicBlocks : List AddressBlock
deriving DecidableEq

instance {ε α : Type} [DecidableEq ε] [DecidableEq α] : DecidableEq (Except ε α) := by
  intro a b
  cases a with
  | error e =>
    cases b with
    | error e' =>
      exact if h : e = e' then .isTrue (by rw [h]) else .isFalse (by intro hc; cases hc; exact h rfl)
    | ok y => exact .isFalse (by intro hc; cases hc)
  | ok x =>
    cases b with
    | error e' => exact .isFalse (by intro hc; cases hc)
    | ok y =>
      exact if h : x = y then .isTrue (by rw [h]) else .isFalse (by intro hc; cases hc; exact h rfl)

/-- The `i`-th of the equal-sized sibling tiles of length `newLen` that tile
the base block in ascending address order. -/
def tileBlock (base : AddressBlock) (newLen i : Nat) : AddressBlock :=
  ⟨base.addr + i * 2 ^ (32 - newLen), newLen⟩

/-- Modelled from the spec: the subnet partitioner `SubnetDistributor`
(called from `main.go`; its defining Go file is not among the available
sources).  Per the spec's algorithm: parse the base CIDR (failing with
`invalidAddress` on malformed input), require `zoneCount ≥ 1` (failing with
`invalidArgument`), compute the smallest `extraBits` with
`2 ^ extraBits ≥ 2 * zoneCount`, fail with `capacity` when
`basePrefix + extraBits > 30`, and otherwise assign to zone `i` the tiles
`2*i` (private) and `2*i + 1` (public) of the ascending tiling. -/
def SubnetDistributor (baseCidr : String) (zoneCount : Int) :
    Except PartitionError PartitionResult :=
  match parseCidr baseCidr with
  | none => .error .invalidAddress
  | some base =>
    if zoneCount < 1 then .error .invalidArgument
    else if 30 < base.prefixLen + extraBitsFor (2 * zoneCount.toNat) then
      .error (.capacity zoneCount base.prefixLen)
    else
      .ok ⟨(List.range zoneCount.toNat).map
             (fun i => tileBlock base (base.prefixLen + extraBitsFor (2 * zoneCount.toNat)) (2 * i)),
           (List.range zoneCount.toNat).map
             (fun i => tileBlock base (base.prefixLen + extraBitsFor (2 * zoneCount.toNat)) (2 * i + 1))⟩

/-! ## Address-range semantics of blocks -/

/-- `x` is an address inside block `b`. -/
def memBlock (x : Nat) (b : AddressBlock) : Prop :=
  b.addr ≤ x ∧ x < b.addr + 2 ^ (32 - b.prefixLen)

/-- Two blocks overlap when some address lies in both. -/
def Overlaps (b c : AddressBlock) : Prop :=
  ∃ x, memBlock x b ∧ memBlock x c

/-- `b` is contained in `c` as an address range. -/
def SubsetOf (b c : AddressBlock) : Prop :=
  ∀ x, memBlock x b → memBlock x c

/-! ## Tag merging (`resourceTags` in `main.go`)

Go maps are reference values; `resourceTags` receives the caller's map and
merges into it with `mergo.Merge(&tags, baseTags)`.  We model the mutable
map store explicitly: a heap is a list of tag maps, and a map value in Go
is an index into that heap.  Tag maps themselves are association lists
looked up by first match. -/

abbrev TagMap := List (String × String)

/-- First-match lookup in an association list, like indexing a Go map. -/
def lookupTag (m : TagMap) (k : String) : Option String :=
  (m.find? (fun p => p.1 == k)).map Prod.snd

/-- `mergo.Merge(&dst, src)` without `WithOverride`: entries of `src` whose
keys are absent from `dst` are added; existing entries of `dst` keep their
values. -/
def mergoMerge (dst src : TagMap) : TagMap :=
  dst ++ src.filter (fun p => (lookupTag dst p.1).isNone)

/-- A heap of Go maps: index `r` is the current contents of map `r`. -/
abbrev TagHeap := List TagMap

/-- Embeds `resourceTags(tags, baseTags)` from `main.go`: it runs
`mergo.Merge(&tags, baseTags)` — mutating the map `tags` refers to in
place — and returns `tags` itself.  The first argument is a heap reference
(all call sites pass the shared `args.BaseTags` map); the second is a
freshly allocated literal, passed by value. -/
def resourceTags (h : TagHeap) (tags : Nat) (baseTags : TagMap) : TagHeap × Nat :=
  (h.set tags (mergoMerge (h.getD tags []) baseTags), tags)

/-! ## The `NewVpc` resource-creation pipeline

`NewVpc` is a linear sequence of calls into the Pulumi engine.  Each call
returns a resource pointer and an error; on error the pointer is nil.  We
model an execution by the static sequence of calls the configuration
determines, an oracle saying which calls fail, and, per call: the handling
the code applies to that call's error — `checked` (followed by
`if err != nil { return nil, err }`), `unchecked` (the error is never
examined), or `derefThenCheck` (the returned pointer is dereferenced
before the error check, as in both subnet loops) — and the set of earlier
calls whose result pointers the construction of this call's arguments
dereferences (method calls such as `igw.ID()` or field reads such as
`awsVpc.DefaultRouteTableId` on a pointer a previous constructor
returned; these methods are promoted from a by-value embedded struct, so
invoking one on a nil pointer dereferences it and panics).  A nil pointer
left in scope by an `unchecked` failure therefore crashes the run at its
first later use, while the arguments are being built and before that
engine call is made. -/

inductive CallTag where
  | vpcResource : CallTag
  | internetGateway : CallTag
  | privateZone : CallTag
  | dhcpOptions : CallTag
  | dhcpAssociation : CallTag
  | privateSubnet : Nat → CallTag
  | publicSubnet : Nat → CallTag
  | defaultRouteTable : CallTag
  | publicRoute : CallTag
  | publicRta : Nat → CallTag
  | natEip : Nat → CallTag
  | natGateway : Nat → CallTag
  | privateRouteTable : Nat → CallTag
  | privateRoute : Nat → CallTag
  | privateRta : Nat → CallTag
  | s3Endpoint : CallTag
  | dynamoEndpoint : CallTag
  | registerComponent : CallTag
  | registerOutputs : CallTag
deriving DecidableEq, BEq

inductive Handling where
  | checked : Handling
  | unchecked : Handling
  | derefThenCheck : Handling
deriving DecidableEq

/-- One engine call of `NewVpc`: its identity, how the code handles its
error, and the earlier calls whose result pointers are dereferenced while
this call's arguments are built. -/
structure FlowCall where
  tag : CallTag
  handling : Handling
  uses : List CallTag
deriving DecidableEq

/-- The sequence of engine calls `NewVpc` makes, in program order, for a
configuration with `n` availability zones.  Read off `main.go`: the
internet-gateway creation has no `if err != nil` check at all, the two
subnet loops append `*pSubnet` before checking `err`, and every other call
is checked; the `uses` lists record the pointer dereferences in each
call's argument construction — in particular the public route reads both
`publicRouteTable.ID()` and `igw.ID()`. -/
def callSequence (hasZone : Bool) (n : Nat) (s3 ddb : Bool) : List FlowCall :=
  [⟨.vpcResource, .checked, []⟩,
   ⟨.internetGateway, .unchecked, [.vpcResource]⟩]
  ++ (if hasZone then
        [⟨.privateZone, .checked, [.vpcResource]⟩,
         ⟨.dhcpOptions, .checked, [.privateZone]⟩,
         ⟨.dhcpAssociation, .checked, [.vpcResource, .dhcpOptions]⟩]
      else [])
  ++ (List.range n).map (fun i =>
       (⟨.privateSubnet i, .derefThenCheck, [.vpcResource]⟩ : FlowCall))
  ++ (List.range n).map (fun i =>
       (⟨.publicSubnet i, .derefThenCheck, [.vpcResource]⟩ : FlowCall))
  ++ [⟨.defaultRouteTable, .checked, [.vpcResource]⟩,
      ⟨.publicRoute, .checked, [.defaultRouteTable, .internetGateway]⟩]
  ++ (List.range n).map (fun i =>
       (⟨.publicRta i, .checked, [.defaultRouteTable]⟩ : FlowCall))
  ++ (List.range n).flatMap (fun i =>
       [(⟨.natEip i, .checked, []⟩ : FlowCall),
        ⟨.natGateway i, .checked, [.natEip i]⟩,
        ⟨.privateRouteTable i, .checked, [.vpcResource]⟩,
        ⟨.privateRoute i, .checked, [.privateRouteTable i, .natGateway i]⟩,
        ⟨.privateRta i, .checked, [.privateRouteTable i]⟩])
  ++ (if s3 then [(⟨.s3Endpoint, .checked, [.vpcResource]⟩ : FlowCall)] else [])
  ++ (if ddb then [(⟨.dynamoEndpoint, .checked, [.vpcResource]⟩ : FlowCall)] else [])
  ++ [⟨.registerComponent, .checked, []⟩,
      ⟨.registerOutputs, .unchecked, [.vpcResource]⟩]

/-- Outcome of a `NewVpc` execution: normal return or error return after
the listed performed calls, or a runtime nil-pointer panic, carrying the
calls performed before it and the call at which it happened (for a
`derefThenCheck` failure the panic follows that same call's return; for a
stale nil pointer it strikes while that call's arguments are being built,
so the call itself is never performed). -/
inductive FlowResult where
  | ok : List CallTag → FlowResult
  | errored : List CallTag → FlowResult
  | panicked : List CallTag → CallTag → FlowResult
deriving DecidableEq

/-- Runs a call sequence against a failure oracle (`fails k` says whether
the `k`-th call returns an error).  `nilPtrs` collects the calls that
failed without aborting the run, i.e. whose nil result pointer stays in
scope.  Building a call's arguments dereferences the pointers in its
`uses`; if one of them is nil, the run panics there.  Otherwise the call
is made: an `unchecked` failure is discarded (recording the nil pointer)
and execution continues; a `checked` failure returns the error; a
`derefThenCheck` failure panics, because the nil resource pointer is
dereferenced before the error check runs. -/
def runFlow (fails : Nat → Bool) :
    List FlowCall → Nat → List CallTag → List CallTag → FlowResult
  | [], _, _, trace => .ok trace.reverse
  | c :: rest, k, nilPtrs, trace =>
    if c.uses.any (fun u => nilPtrs.contains u) then
      .panicked trace.reverse c.tag
    else if fails k then
      match c.handling with
      | .unchecked => runFlow fails rest (k + 1) (c.tag :: nilPtrs) (c.tag :: trace)
      | .checked => .errored (c.tag :: trace).reverse
      | .derefThenCheck => .panicked ((c.tag :: trace).reverse) c.tag
    else runFlow fails rest (k + 1) nilPtrs (c.tag :: trace)

/-- One `NewVpc` execution for a given configuration and failure oracle. -/
def NewVpcFlow (hasZone : Bool) (n : Nat) (s3 ddb : Bool) (fails : Nat → Bool) : FlowResult :=
  runFlow fails (callSequence hasZone n s3 ddb) 0 [] []

/-! ## Body of the two subnet-creation loops -/

inductive SubnetStep where
  | derefSubnet : SubnetStep
  | appendId : SubnetStep
  | errCheck : SubnetStep
deriving DecidableEq

inductive BodyOutcome where
  | ok : BodyOutcome
  | errorReturn : BodyOutcome
  | panicked : BodyOutcome
deriving DecidableEq

/-- Embeds one iteration of either subnet-creation loop in `NewVpc`: the
call `ec2.NewSubnet` yields a pointer `pSubnet` and an error flag; the code
then appends `*pSubnet`, appends `pSubnet.ID()`, and only afterwards checks
the error.  A nil pointer panics at the dereference, before the error check
is reached; the returned list records the steps executed in order. -/
def subnetLoopBody (pSubnet : Option Unit) (errFlag : Bool) :
    List SubnetStep × BodyOutcome :=
  match pSubnet with
  | none => ([.derefSubnet], .panicked)
  | some _ =>
    ([.derefSubnet, .appendId, .errCheck],
     if errFlag then .errorReturn else .ok)

/-! ## A relational presentation of the partitioner

`Computes s n r` holds when `r` is a result the spec's algorithm can
produce on `(s, n)`: the number of extra bits is constrained only by the
spec's characterisation (sufficient and minimal), not computed by a fixed
procedure, so determinism of the algorithm is a theorem rather than a
definition. -/
inductive Computes : String → Int → Except PartitionError PartitionResult → Prop where
  | badAddress {s : String} {n : Int} :
      parseCidr s = none → Computes s n (.error .invalidAddress)
  | badCount {s : String} {n : Int} {base : AddressBlock} :
      parseCidr s = some base → n < 1 → Computes s n (.error .invalidArgument)
  | noCapacity {s : String} {n : Int} {base : AddressBlock} {e : Nat} :
      parseCidr s = some base → ¬ n < 1 →
      2 * n.toNat ≤ 2 ^ e → (∀ e', 2 * n.toNat ≤ 2 ^ e' → e ≤ e') →
      30 < base.prefixLen + e →
      Computes s n (.error (.capacity n base.prefixLen))
  | success {s : String} {n : Int} {base : AddressBlock} {e : Nat} :
      parseCidr s = some base → ¬ n < 1 →
      2 * n.toNat ≤ 2 ^ e → (∀ e', 2 * n.toNat ≤ 2 ^ e' → e ≤ e') →
      ¬ 30 < base.prefixLen + e →
      Computes s n
        (.ok ⟨(List.range n.toNat).map
                (fun i => tileBlock base (base.prefixLen + e) (2 * i)),
              (List.range n.toNat).map
                (fun i => tileBlock base (base.prefixLen + e) (2 * i + 1))⟩)

/-- The function `SubnetDistributor` realises the relation `Computes`. -/
theorem computes_subnetDistributor (s : String) (n : Int) :
    Computes s n (SubnetDistributor s n) := by
  unfold SubnetDistributor
  obtain ⟨hge, hmin⟩ := extraBitsFor_spec (2 * n.toNat)
  cases hp : parseCidr s with
  | none => exact Computes.badAddress hp
  | some base =>
    by_cases hn : n < 1
    · simp only [hn, if_true]
      exact Computes.badCount hp hn
    · simp only [hn, if_false]
      by_cases hcap : 30 < base.prefixLen + extraBitsFor (2 * n.toNat)
      · simp only [hcap, if_true]
        exact Computes.noCapacity hp hn hge hmin hcap
      · simp only [hcap, if_false]
        exact Computes.success hp hn hge hmin hcap

/-! ## Helper lemmas about the partitioner's success case -/

/-- Characterisation of a successful partition: the zone count was positive,
the capacity check passed, and the result is the interleaved tiling. -/
theorem subnetDistributor_ok {s : String} {n : Int} {base : AddressBlock}
    {r : PartitionResult} (hp : parseCidr s = some base)
    (hok : SubnetDistributor s n = .ok r) :
    1 ≤ n ∧ base.prefixLen + extraBitsFor (2 * n.toNat) ≤ 30 ∧
    r.privateBlocks = (List.range n.toNat).map
      (fun i => tileBlock base (base.prefixLen + extraBitsFor (2 * n.toNat)) (2 * i)) ∧
    r.publicBlocks = (List.range n.toNat).map
      (fun i => tileBlock base (base.prefixLen + extraBitsFor (2 * n.toNat)) (2 * i + 1)) := by
  unfold SubnetDistributor at hok
  rw [hp] at hok
  by_cases hn : n < 1
  · simp [hn] at hok
  · by_cases hcap : 30 < base.prefixLen + extraBitsFor (2 * n.toNat)
    · simp [hn, hcap] at hok
    · simp only [hn, hcap, if_false, Except.ok.injEq] at hok
      refine ⟨by omega, by omega, ?_, ?_⟩ <;> rw [← hok]

/-- Indexing a mapped range list. -/
theorem getD_map_range {α : Type} (f : Nat → α) {N i : Nat} (d : α) (h : i < N) :
    ((List.range N).map f).getD i d = f i := by
  rw [List.getD_eq_getElem _ _ (by simpa using h)]
  simp

/-- Distinct tiles of the same tiling do not overlap. -/
theorem tileBlock_disjoint (base : AddressBlock) (newLen j k : Nat) (hjk : j ≠ k) :
    ¬ Overlaps (tileBlock base newLen j) (tileBlock base newLen k) := by
  have hS : 0 < 2 ^ (32 - newLen) := Nat.pos_pow_of_pos _ (by norm_num)
  rintro ⟨x, ⟨hx1, hx2⟩, ⟨hy1, hy2⟩⟩
  simp only [tileBlock, memBlock] at hx1 hx2 hy1 hy2
  rcases Nat.lt_or_ge j k with hlt | hge
  · have : (j + 1) * 2 ^ (32 - newLen) ≤ k * 2 ^ (32 - newLen) :=
      Nat.mul_le_mul_right _ (by omega)
    have hx2' : x < base.addr + (j + 1) * 2 ^ (32 - newLen) := by
      rw [Nat.add_mul]; omega
    omega
  · have hlt : k < j := by omega
    have : (k + 1) * 2 ^ (32 - newLen) ≤ j * 2 ^ (32 - newLen) :=
      Nat.mul_le_mul_right _ (by omega)
    have hy2' : x < base.addr + (k + 1) * 2 ^ (32 - newLen) := by
      rw [Nat.add_mul]; omega
    omega

/-- A tile with index below `2 ^ extra` is contained in the base block,
where `newLen = base.prefixLen + extra ≤ 32`. -/
theorem tileBlock_subset (base : AddressBlock) (extra j : Nat)
    (hlen : base.prefixLen + extra ≤ 32) (hj : j < 2 ^ extra) :
    SubsetOf (tileBlock base (base.prefixLen + extra) j) base := by
  intro x hx
  obtain ⟨hx1, hx2⟩ := hx
  simp only [tileBlock] at hx1 hx2
  have hpow : 2 ^ extra * 2 ^ (32 - (base.prefixLen + extra)) = 2 ^ (32 - base.prefixLen) := by
    rw [← pow_add]
    congr 1
    omega
  have hmul : (j + 1) * 2 ^ (32 - (base.prefixLen + extra)) ≤
      2 ^ extra * 2 ^ (32 - (base.prefixLen + extra)) :=
    Nat.mul_le_mul_right _ (by omega)
  constructor
  · omega
  · have hx2' : x < base.addr + (j + 1) * 2 ^ (32 - (base.prefixLen + extra)) := by
      rw [Nat.add_mul]; omega
    omega

/-! ## Claim theorems -/

/-- C2: for every valid input, the partitioner enumerates the equal-sized
tiles of the base block in ascending address order (tile `i` starts at
`baseAddress + i * 2 ^ (32 - newLen)`, which is `tileBlock`), assigning
`privateBlocks[i] = tile (2*i)` and `publicBlocks[i] = tile (2*i + 1)`; in
particular `partition("10.0.0.0/16", 2)` yields private `10.0.0.0/18,
10.0.128.0/18` and public `10.0.64.0/18, 10.0.192.0/18`, and
`partition("192.168.0.0/24", 1)` yields private `192.168.0.0/25` and
public `192.168.0.128/25`. -/
theorem partition_tile_assignment :
    (∀ (s : String) (n : Int) (base : AddressBlock) (r : PartitionResult),
      parseCidr s = some base → SubnetDistributor s n = Except.ok r →
      r.privateBlocks.length = n.toNat ∧ r.publicBlocks.length = n.toNat ∧
      ∀ i, i < n.toNat →
        r.privateBlocks.getD i ⟨0, 0⟩ =
          tileBlock base (base.prefixLen + extraBitsFor (2 * n.toNat)) (2 * i) ∧
        r.publicBlocks.getD i ⟨0, 0⟩ =
          tileBlock base (base.prefixLen + extraBitsFor (2 * n.toNat)) (2 * i + 1)) ∧
    SubnetDistributor "10.0.0.0/16" 2 =
      Except.ok ⟨[⟨167772160, 18⟩, ⟨167804928, 18⟩],
                 [⟨167788544, 18⟩, ⟨167821312, 18⟩]⟩ ∧
    SubnetDistributor "192.168.0.0/24" 1 =
      Except.ok ⟨[⟨3232235520, 25⟩], [⟨3232235648, 25⟩]⟩ := by
  refine ⟨?_, by decide, by decide⟩
  intro s n base r hp hok
  obtain ⟨hn, hcap, hpriv, hpub⟩ := subnetDistributor_ok hp hok
  refine ⟨by rw [hpriv]; simp, by rw [hpub]; simp, ?_⟩
  intro i hi
  rw [hpriv, hpub, getD_map_range _ (⟨0, 0⟩ : AddressBlock) hi, getD_map_range _ (⟨0, 0⟩ : AddressBlock) hi]
  exact ⟨rfl, rfl⟩

theorem partition_tile_assignment_witness :
    ([(⟨167772160, 18⟩ : AddressBlock), ⟨167804928, 18⟩] : List AddressBlock).getD 1 ⟨0, 0⟩ =
      tileBlock ⟨167772160, 16⟩
        ((⟨167772160, 16⟩ : AddressBlock).prefixLen + extraBitsFor (2 * (2 : Int).toNat))
        (2 * 1) ∧
    ([(⟨167788544, 18⟩ : AddressBlock), ⟨167821312, 18⟩] : List AddressBlock).getD 1 ⟨0, 0⟩ =
      tileBlock ⟨167772160, 16⟩
        ((⟨167772160, 16⟩ : AddressBlock).prefixLen + extraBitsFor (2 * (2 : Int).toNat))
        (2 * 1 + 1) :=
  (partition_tile_assignment.1 "10.0.0.0/16" 2 ⟨167772160, 16⟩
    ⟨[⟨167772160, 18⟩, ⟨167804928, 18⟩], [⟨167788544, 18⟩, ⟨167821312, 18⟩]⟩
    (by decide) (by decide)).2.2 1 (by decide)

/-- C1: for every valid input, the partitioner returns `2 * zoneCount`
pairwise non-overlapping blocks, every returned block is contained in the
base block, the two sequences have length `zoneCount` each, both are in
ascending address order, and the private block of each zone precedes its
paired public block. -/
theorem partition_disjoint_and_contained :
    ∀ (s : String) (n : Int) (base : AddressBlock) (r : PartitionResult),
      parseCidr s = some base → SubnetDistributor s n = Except.ok r →
      (r.privateBlocks ++ r.publicBlocks).length = 2 * n.toNat ∧
      List.Pairwise (fun b c => ¬ Overlaps b c) (r.privateBlocks ++ r.publicBlocks) ∧
      (∀ b ∈ r.privateBlocks ++ r.publicBlocks, SubsetOf b base) ∧
      r.privateBlocks.length = n.toNat ∧ r.publicBlocks.length = n.toNat ∧
      List.Pairwise (fun b c => b.addr < c.addr) r.privateBlocks ∧
      List.Pairwise (fun b c => b.addr < c.addr) r.publicBlocks ∧
      (∀ i, i < n.toNat →
        (r.privateBlocks.getD i ⟨0, 0⟩).addr < (r.publicBlocks.getD i ⟨0, 0⟩).addr) := by
  intro s n base r hp hok
  obtain ⟨hn1, hcap, hpriv, hpub⟩ := subnetDistributor_ok hp hok
  obtain ⟨hge, -⟩ := extraBitsFor_spec (2 * n.toNat)
  have hS : 0 < 2 ^ (32 - (base.prefixLen + extraBitsFor (2 * n.toNat))) :=
    Nat.pos_pow_of_pos _ (by norm_num)
  refine ⟨?_, ?_, ?_, ?_, ?_, ?_, ?_, ?_⟩
  · rw [hpriv, hpub]; simp; omega
  · rw [hpriv, hpub, List.pairwise_append]
    refine ⟨?_, ?_, ?_⟩
    · rw [List.pairwise_map]
      exact (List.pairwise_lt_range _).imp
        (fun hab => tileBlock_disjoint base _ _ _ (by omega))
    · rw [List.pairwise_map]
      exact (List.pairwise_lt_range _).imp
        (fun hab => tileBlock_disjoint base _ _ _ (by omega))
    · intro a ha b hb
      obtain ⟨i, hi, rfl⟩ := List.mem_map.mp ha
      obtain ⟨j, hj, rfl⟩ := List.mem_map.mp hb
      exact tileBlock_disjoint base _ _ _ (by omega)
  · intro b hb
    rw [hpriv, hpub] at hb
    rcases List.mem_append.mp hb with hmem | hmem
    · obtain ⟨i, hi, rfl⟩ := List.mem_map.mp hmem
      have hi' : i < n.toNat := List.mem_range.mp hi
      exact tileBlock_subset base _ _ (by omega) (by omega)
    · obtain ⟨i, hi, rfl⟩ := List.mem_map.mp hmem
      have hi' : i < n.toNat := List.mem_range.mp hi
      exact tileBlock_subset base _ _ (by omega) (by omega)
  · rw [hpriv]; simp
  · rw [hpub]; simp
  · rw [hpriv, List.pairwise_map]
    refine (List.pairwise_lt_range _).imp (fun hab => ?_)
    simp only [tileBlock]
    exact Nat.add_lt_add_left ((Nat.mul_lt_mul_right hS).mpr (by omega)) _
  · rw [hpub, List.pairwise_map]
    refine (List.pairwise_lt_range _).imp (fun hab => ?_)
    simp only [tileBlock]
    exact Nat.add_lt_add_left ((Nat.mul_lt_mul_right hS).mpr (by omega)) _
  · intro i hi
    rw [hpriv, hpub, getD_map_range _ (⟨0, 0⟩ : AddressBlock) hi, getD_map_range _ (⟨0, 0⟩ : AddressBlock) hi]
    simp only [tileBlock]
    exact Nat.add_lt_add_left ((Nat.mul_lt_mul_right hS).mpr (by omega)) _

theorem partition_disjoint_and_contained_witness :
    (([⟨167772160, 18⟩, ⟨167804928, 18⟩] : List AddressBlock) ++
        ([⟨167788544, 18⟩, ⟨167821312, 18⟩] : List AddressBlock)).length = 2 * (2 : Int).toNat ∧
    SubsetOf ⟨167772160, 18⟩ ⟨167772160, 16⟩ := by
  have h := partition_disjoint_and_contained "10.0.0.0/16" 2 ⟨167772160, 16⟩
    ⟨[⟨167772160, 18⟩, ⟨167804928, 18⟩], [⟨167788544, 18⟩, ⟨167821312, 18⟩]⟩
    (by decide) (by decide)
  exact ⟨h.1, h.2.2.1 ⟨167772160, 18⟩ (by decide)⟩

/-- C3: for every parseable base CIDR and zone count `≥ 1`, the extra-bit
count is the smallest `e` with `2 ^ e ≥ 2 * zoneCount`, and the partitioner
fails with a capacity error exactly when `basePrefix + extraBits > 30`; in
particular `partition("10.0.0.0/24", 64)` fails with a capacity error and
`partition("10.0.0.0/16", 3)` succeeds. -/
theorem partition_capacity_boundary :
    (∀ (s : String) (n : Int) (base : AddressBlock),
      parseCidr s = some base → 1 ≤ n →
      (2 * n.toNat ≤ 2 ^ extraBitsFor (2 * n.toNat) ∧
        ∀ e, 2 * n.toNat ≤ 2 ^ e → extraBitsFor (2 * n.toNat) ≤ e) ∧
      (SubnetDistributor s n = Except.error (.capacity n base.prefixLen) ↔
        30 < base.prefixLen + extraBitsFor (2 * n.toNat)) ∧
      ((∃ r, SubnetDistributor s n = Except.ok r) ↔
        base.prefixLen + extraBitsFor (2 * n.toNat) ≤ 30)) ∧
    SubnetDistributor "10.0.0.0/24" 64 = Except.error (.capacity 64 24) ∧
    SubnetDistributor "10.0.0.0/16" 3 =
      Except.ok ⟨[⟨167772160, 19⟩, ⟨167788544, 19⟩, ⟨167804928, 19⟩],
                 [⟨167780352, 19⟩, ⟨167796736, 19⟩, ⟨167813120, 19⟩]⟩ := by
  refine ⟨?_, by decide, by decide⟩
  intro s n base hp hn
  have hn' : ¬ n < 1 := by omega
  refine ⟨extraBitsFor_spec _, ?_, ?_⟩
  · unfold SubnetDistributor
    rw [hp]
    by_cases hcap : 30 < base.prefixLen + extraBitsFor (2 * n.toNat)
    · simp [hn', hcap]
    · simp [hn', hcap]
  · unfold SubnetDistributor
    rw [hp]
    by_cases hcap : 30 < base.prefixLen + extraBitsFor (2 * n.toNat)
    · simp [hn', hcap]
    · simp [hn', hcap]
      omega

theorem partition_capacity_boundary_witness :
    2 * (64 : Int).toNat ≤ 2 ^ extraBitsFor (2 * (64 : Int).toNat) ∧
    SubnetDistributor "10.0.0.0/24" 64 =
      Except.error (.capacity 64 ((⟨167772160, 24⟩ : AddressBlock).prefixLen)) := by
  have h := partition_capacity_boundary.1 "10.0.0.0/24" 64 ⟨167772160, 24⟩ (by decide) (by decide)
  exact ⟨h.1.1, h.2.1.mpr (by decide)⟩

/-- C4: a malformed base CIDR fails with `invalidAddress` (in particular
`partition("not-a-cidr", 2)` does); a well-formed CIDR with a zero or
negative zone count fails with `invalidArgument`; every failure is one of
`invalidAddress`, `invalidArgument`, or `capacity`; and the result is a
single `Except` value — an error carries no blocks, so no partial result is
produced. -/
theorem partition_failure_taxonomy :
    (∀ (s : String) (n : Int), parseCidr s = none →
      SubnetDistributor s n = Except.error .invalidAddress) ∧
    (∀ (s : String) (n : Int) (base : AddressBlock),
      parseCidr s = some base → n < 1 →
      SubnetDistributor s n = Except.error .invalidArgument) ∧
    (∀ (s : String) (n : Int) (err : PartitionError),
      SubnetDistributor s n = Except.error err →
      err = .invalidAddress ∨ err = .invalidArgument ∨
        ∃ pl, err = .capacity n pl) ∧
    SubnetDistributor "not-a-cidr" 2 = Except.error .invalidAddress := by
  refine ⟨?_, ?_, ?_, by decide⟩
  · intro s n hp
    unfold SubnetDistributor
    rw [hp]
  · intro s n base hp hn
    unfold SubnetDistributor
    rw [hp]
    simp [hn]
  · intro s n err herr
    unfold SubnetDistributor at herr
    cases hp : parseCidr s with
    | none =>
      rw [hp] at herr
      simp only [Except.error.injEq] at herr
      exact Or.inl herr.symm
    | some base =>
      rw [hp] at herr
      by_cases hn : n < 1
      · simp only [hn, if_true, Except.error.injEq] at herr
        exact Or.inr (Or.inl herr.symm)
      · by_cases hcap : 30 < base.prefixLen + extraBitsFor (2 * n.toNat)
        · simp only [hn, hcap, if_true, if_false, Except.error.injEq] at herr
          exact Or.inr (Or.inr ⟨base.prefixLen, herr.symm⟩)
        · simp [hn, hcap] at herr

theorem partition_failure_taxonomy_witness :
    SubnetDistributor "10.0.0.0/16" 0 = Except.error .invalidArgument :=
  partition_failure_taxonomy.2.1 "10.0.0.0/16" 0 ⟨167772160, 16⟩ (by decide) (by decide)

/-- Transports the minimality property of `extraBitsFor` to a known value. -/
theorem minimal_extra_of_eq {m e : Nat} (h : extraBitsFor m = e) :
    ∀ e', m ≤ 2 ^ e' → e ≤ e' := by
  subst h
  exact (extraBitsFor_spec m).2

/-- C7: the partitioner is deterministic — the relation `Computes`, which
constrains the extra-bit count only by the spec's characterisation
(sufficient and minimal) rather than by a fixed procedure, admits at most
one result per input, so two runs on identical `(baseCidr, zoneCount)`
yield identical private and public block sequences. -/
theorem partition_deterministic {s : String} {n : Int}
    {r₁ r₂ : Except PartitionError PartitionResult}
    (h₁ : Computes s n r₁) (h₂ : Computes s n r₂) : r₁ = r₂ := by
  cases h₁ with
  | badAddress hp₁ =>
    cases h₂ with
    | badAddress hp₂ => rfl
    | badCount hp₂ hn₂ => rw [hp₁] at hp₂; exact Option.noConfusion hp₂
    | noCapacity hp₂ hn₂ hge₂ hmin₂ hcap₂ => rw [hp₁] at hp₂; exact Option.noConfusion hp₂
    | success hp₂ hn₂ hge₂ hmin₂ hcap₂ => rw [hp₁] at hp₂; exact Option.noConfusion hp₂
  | badCount hp₁ hn₁ =>
    cases h₂ with
    | badAddress hp₂ => rw [hp₂] at hp₁; exact Option.noConfusion hp₁
    | badCount hp₂ hn₂ => rfl
    | noCapacity hp₂ hn₂ hge₂ hmin₂ hcap₂ => exact absurd hn₁ hn₂
    | success hp₂ hn₂ hge₂ hmin₂ hcap₂ => exact absurd hn₁ hn₂
  | noCapacity hp₁ hn₁ hge₁ hmin₁ hcap₁ =>
    cases h₂ with
    | badAddress hp₂ => rw [hp₂] at hp₁; exact Option.noConfusion hp₁
    | badCount hp₂ hn₂ => exact absurd hn₂ hn₁
    | noCapacity hp₂ hn₂ hge₂ hmin₂ hcap₂ =>
      rw [hp₁] at hp₂
      injection hp₂ with hb
      rw [hb]
    | success hp₂ hn₂ hge₂ hmin₂ hcap₂ =>
      rw [hp₁] at hp₂
      injection hp₂ with hb
      subst hb
      have he : _ = _ := Nat.le_antisymm (hmin₁ _ hge₂) (hmin₂ _ hge₁)
      rw [he] at hcap₁
      exact absurd hcap₁ hcap₂
  | success hp₁ hn₁ hge₁ hmin₁ hcap₁ =>
    cases h₂ with
    | badAddress hp₂ => rw [hp₂] at hp₁; exact Option.noConfusion hp₁
    | badCount hp₂ hn₂ => exact absurd hn₂ hn₁
    | noCapacity hp₂ hn₂ hge₂ hmin₂ hcap₂ =>
      rw [hp₁] at hp₂
      injection hp₂ with hb
      subst hb
      have he : _ = _ := Nat.le_antisymm (hmin₁ _ hge₂) (hmin₂ _ hge₁)
      rw [he] at hcap₁
      exact absurd hcap₂ hcap₁
    | success hp₂ hn₂ hge₂ hmin₂ hcap₂ =>
      rw [hp₁] at hp₂
      injection hp₂ with hb
      subst hb
      have he : _ = _ := Nat.le_antisymm (hmin₁ _ hge₂) (hmin₂ _ hge₁)
      rw [he]

theorem partition_deterministic_witness :
    SubnetDistributor "10.0.0.0/16" 2 =
      Except.ok ⟨[⟨167772160, 18⟩, ⟨167804928, 18⟩],
                 [⟨167788544, 18⟩, ⟨167821312, 18⟩]⟩ := by
  exact partition_deterministic (computes_subnetDistributor "10.0.0.0/16" 2)
    (@Computes.success "10.0.0.0/16" 2 ⟨167772160, 16⟩ 2 (by decide) (by decide)
      (by decide) (minimal_extra_of_eq (by decide)) (by decide))

/-- C8: zone growth is stable below the doubling threshold — for a fixed
base CIDR, when the minimal extra-bit count for `zoneCount + 1` equals the
one for `zoneCount`, every block assigned to an existing zone index is
unchanged by adding one zone. -/
theorem partition_zone_growth_stable :
    ∀ (s : String) (N : Nat) (r r' : PartitionResult),
      extraBitsFor (2 * (N + 1)) = extraBitsFor (2 * N) →
      SubnetDistributor s (Int.ofNat N) = Except.ok r →
      SubnetDistributor s (Int.ofNat (N + 1)) = Except.ok r' →
      ∀ i, i < N →
        r.privateBlocks.getD i ⟨0, 0⟩ = r'.privateBlocks.getD i ⟨0, 0⟩ ∧
        r.publicBlocks.getD i ⟨0, 0⟩ = r'.publicBlocks.getD i ⟨0, 0⟩ := by
  intro s N r r' hthr h h'
  cases hp : parseCidr s with
  | none =>
    unfold SubnetDistributor at h
    rw [hp] at h
    exact Except.noConfusion h
  | some base =>
    obtain ⟨-, -, hpriv, hpub⟩ := subnetDistributor_ok hp h
    obtain ⟨-, -, hpriv', hpub'⟩ := subnetDistributor_ok hp h'
    intro i hi
    have hN : (Int.ofNat N).toNat = N := by simp
    have hN' : (Int.ofNat (N + 1)).toNat = N + 1 := by simp
    rw [hN] at hpriv hpub
    rw [hN'] at hpriv' hpub'
    rw [hthr] at hpriv' hpub'
    rw [hpriv, hpub, hpriv', hpub',
      getD_map_range _ (⟨0, 0⟩ : AddressBlock) hi,
      getD_map_range _ (⟨0, 0⟩ : AddressBlock) hi,
      getD_map_range _ (⟨0, 0⟩ : AddressBlock) (by omega : i < N + 1),
      getD_map_range _ (⟨0, 0⟩ : AddressBlock) (by omega : i < N + 1)]
    exact ⟨rfl, rfl⟩

theorem partition_zone_growth_stable_witness :
    ([(⟨167772160, 19⟩ : AddressBlock), ⟨167788544, 19⟩, ⟨167804928, 19⟩] :
        List AddressBlock).getD 0 ⟨0, 0⟩ =
      ([(⟨167772160, 19⟩ : AddressBlock), ⟨167788544, 19⟩, ⟨167804928, 19⟩,
        ⟨167821312, 19⟩] : List AddressBlock).getD 0 ⟨0, 0⟩ ∧
    ([(⟨167780352, 19⟩ : AddressBlock), ⟨167796736, 19⟩, ⟨167813120, 19⟩] :
        List AddressBlock).getD 0 ⟨0, 0⟩ =
      ([(⟨167780352, 19⟩ : AddressBlock), ⟨167796736, 19⟩, ⟨167813120, 19⟩,
        ⟨167829504, 19⟩] : List AddressBlock).getD 0 ⟨0, 0⟩ :=
  partition_zone_growth_stable "10.0.0.0/16" 3
    ⟨[⟨167772160, 19⟩, ⟨167788544, 19⟩, ⟨167804928, 19⟩],
     [⟨167780352, 19⟩, ⟨167796736, 19⟩, ⟨167813120, 19⟩]⟩
    ⟨[⟨167772160, 19⟩, ⟨167788544, 19⟩, ⟨167804928, 19⟩, ⟨167821312, 19⟩],
     [⟨167780352, 19⟩, ⟨167796736, 19⟩, ⟨167813120, 19⟩, ⟨167829504, 19⟩]⟩
    (by decide) (by decide) (by decide) 0 (by decide)

/-- C9: in each subnet-creation loop iteration of `NewVpc`, the returned
subnet pointer is dereferenced before the error is checked: reaching the
error-return branch requires the dereference to have already succeeded (a
non-nil pointer, with the dereference as the first executed step), while a
nil result panics at the dereference and never reaches the error check. -/
theorem subnetLoop_deref_before_check :
    ∀ (p : Option Unit) (errFlag : Bool),
      (subnetLoopBody p errFlag).2 = BodyOutcome.errorReturn →
      p.isSome = true ∧
      (subnetLoopBody p errFlag).1.head? = some SubnetStep.derefSubnet ∧
      ∀ e, (subnetLoopBody none e).2 = BodyOutcome.panicked := by
  intro p errFlag h
  cases p with
  | none => exact absurd h (by cases errFlag <;> decide)
  | some u => exact ⟨rfl, rfl, fun e => rfl⟩

theorem subnetLoop_deref_before_check_witness :
    (some () : Option Unit).isSome = true ∧
    (subnetLoopBody (some ()) true).1.head? = some SubnetStep.derefSubnet ∧
    (subnetLoopBody none true).2 = BodyOutcome.panicked := by
  have h := subnetLoop_deref_before_check (some ()) true (by decide)
  exact ⟨h.1, h.2.1, h.2.2 true⟩

/-- C6 (code bug): `main.go` never checks the error of the internet-gateway
creation, so the pipeline does not abort on its failure.  First conjunct:
in the execution where call index 1 (the internet gateway) fails and every
other call succeeds, `NewVpc` neither returns the error nor stops — it
goes on to create both subnets and the default route table, and then
panics dereferencing the nil gateway pointer (`igw.ID()`) while building
the public route's arguments.  Second conjunct, for contrast: a failure of
the checked call index 0 (the VPC itself) aborts immediately with no
subsequent call. -/
theorem newVpc_ignores_igw_error :
    NewVpcFlow false 1 false false (fun k => k == 1) =
      FlowResult.panicked
        [.vpcResource, .internetGateway, .privateSubnet 0, .publicSubnet 0,
         .defaultRouteTable]
        .publicRoute ∧
    NewVpcFlow false 1 false false (fun k => k == 0) =
      FlowResult.errored [.vpcResource] := by
  constructor <;> decide

/-! ## Lemmas about tag-map lookup and merging -/

theorem lookupTag_cons (k₀ v₀ : String) (rest : TagMap) (k : String) :
    lookupTag ((k₀, v₀) :: rest) k =
      if k₀ == k then some v₀ else lookupTag rest k := by
  unfold lookupTag
  by_cases h : (k₀ == k) <;> simp [List.find?_cons, h]

theorem lookupTag_append (m₁ m₂ : TagMap) (k : String) :
    lookupTag (m₁ ++ m₂) k = (lookupTag m₁ k).or (lookupTag m₂ k) := by
  unfold lookupTag
  rw [List.find?_append]
  cases List.find? (fun p => p.1 == k) m₁ <;> simp

/-- Filtering out the keys already bound in `m` does not change lookups of
keys unbound in `m`. -/
theorem lookupTag_filter_preserved (m b : TagMap) (k : String)
    (hm : lookupTag m k = none) :
    lookupTag (b.filter (fun p => (lookupTag m p.1).isNone)) k = lookupTag b k := by
  induction b with
  | nil => rfl
  | cons p rest ih =>
    obtain ⟨k₀, v₀⟩ := p
    rw [List.filter_cons]
    by_cases hkeep : ((lookupTag m k₀).isNone : Bool)
    · rw [if_pos (by simpa using hkeep), lookupTag_cons, lookupTag_cons]
      by_cases hk : (k₀ == k)
      · simp [hk]
      · simp [hk, ih]
    · rw [if_neg (by simpa using hkeep), lookupTag_cons]
      by_cases hk : (k₀ == k)
      · have hk' : k₀ = k := by simpa using hk
        subst hk'
        rw [hm] at hkeep
        simp at hkeep
      · simp [hk, ih]

theorem lookupTag_mergoMerge_some {m b : TagMap} {k v : String}
    (h : lookupTag m k = some v) : lookupTag (mergoMerge m b) k = some v := by
  unfold mergoMerge
  rw [lookupTag_append, h]
  rfl

theorem lookupTag_mergoMerge_none {m b : TagMap} {k : String}
    (h : lookupTag m k = none) :
    lookupTag (mergoMerge m b) k = lookupTag b k := by
  unfold mergoMerge
  rw [lookupTag_append, h, lookupTag_filter_preserved m b k h]
  cases lookupTag b k <;> rfl

theorem getD_set_self (h : TagHeap) (t : Nat) (x : TagMap) (ht : t < h.length) :
    (h.set t x).getD t [] = x := by
  rw [List.getD_eq_getElem _ _ (by simpa using ht)]
  simp [List.getElem_set, ht]

theorem getD_set_ne (h : TagHeap) (t r : Nat) (x : TagMap) (hr : r ≠ t) :
    (h.set t x).getD r [] = h.getD r [] := by
  unfold List.getD
  rw [List.get?_eq_getElem?, List.get?_eq_getElem?, List.getElem?_set_ne (by omega)]

/-- C5 counterexample: with the shared base map holding `Name ↦ "from-base"`
and the per-resource overrides map holding `Name ↦ "override"`, the merged
map produced by `resourceTags` still binds `Name` to `"from-base"` — the
overrides value does not win, refuting the claimed override-wins-on-conflict
semantics of the tag-merge helper. -/
theorem resourceTags_override_loses :
    lookupTag (((resourceTags [[("Name", "from-base")]] 0
        [("Name", "override")]).1).getD 0 []) "Name" = some "from-base" ∧
    (some "from-base" : Option String) ≠ some "override" := by
  constructor <;> decide

/-- C5 (amended): `resourceTags` is not a pure override-wins merge.  It
mutates the map its first argument refers to (via `mergo.Merge`) and
returns that same reference; on a key conflict the first argument's
existing value wins and the second argument's value is discarded; keys
present only in the second argument are added with their second-argument
values. -/
theorem resourceTags_first_arg_wins (h : TagHeap) (t : Nat) (b : TagMap)
    (ht : t < h.length) :
    (resourceTags h t b).2 = t ∧
    (∀ k v w, lookupTag (h.getD t []) k = some v → lookupTag b k = some w →
      lookupTag (((resourceTags h t b).1).getD t []) k = some v) ∧
    (∀ k w, lookupTag (h.getD t []) k = none → lookupTag b k = some w →
      lookupTag (((resourceTags h t b).1).getD t []) k = some w) := by
  refine ⟨rfl, ?_, ?_⟩
  · intro k v w hv hw
    show lookupTag ((h.set t (mergoMerge (h.getD t []) b)).getD t []) k = some v
    rw [getD_set_self h t _ ht]
    exact lookupTag_mergoMerge_some hv
  · intro k w hk hw
    show lookupTag ((h.set t (mergoMerge (h.getD t []) b)).getD t []) k = some w
    rw [getD_set_self h t _ ht]
    rw [lookupTag_mergoMerge_none hk]
    exact hw

theorem resourceTags_first_arg_wins_witness :
    (resourceTags [[("Name", "from-base")]] 0
        [("Name", "override"), ("Env", "prod")]).2 = 0 ∧
    lookupTag (((resourceTags [[("Name", "from-base")]] 0
        [("Name", "override"), ("Env", "prod")]).1).getD 0 []) "Name" =
      some "from-base" ∧
    lookupTag (((resourceTags [[("Name", "from-base")]] 0
        [("Name", "override"), ("Env", "prod")]).1).getD 0 []) "Env" =
      some "prod" := by
  have h := resourceTags_first_arg_wins [[("Name", "from-base")]] 0
    [("Name", "override"), ("Env", "prod")] (by decide)
  exact ⟨h.1,
    h.2.1 "Name" "from-base" "override" (by decide) (by decide),
    h.2.2 "Env" "prod" (by decide) (by decide)⟩

/-- C10: `resourceTags` mutates its first argument in place and returns
that same map: after the call, the map the first argument refers to holds
every key of the second argument it did not already hold, its existing
entries are untouched, every other heap cell is untouched, and an entry
added by one call persists into a later call that passes the same map
(whose conflicting value for that key is then ignored). -/
theorem resourceTags_mutates_shared_map (h : TagHeap) (t : Nat) (b b₂ : TagMap)
    (ht : t < h.length) :
    (resourceTags h t b).2 = t ∧
    (∀ k v, lookupTag (h.getD t []) k = some v →
      lookupTag (((resourceTags h t b).1).getD t []) k = some v) ∧
    (∀ k v, lookupTag (h.getD t []) k = none → lookupTag b k = some v →
      lookupTag (((resourceTags h t b).1).getD t []) k = some v) ∧
    (∀ r, r ≠ t → ((resourceTags h t b).1).getD r [] = h.getD r []) ∧
    (∀ k v, lookupTag (h.getD t []) k = none → lookupTag b k = some v →
      lookupTag (((resourceTags ((resourceTags h t b).1) t b₂).1).getD t []) k
        = some v) := by
  have hset : ((resourceTags h t b).1).getD t [] = mergoMerge (h.getD t []) b :=
    getD_set_self h t _ ht
  refine ⟨rfl, ?_, ?_, ?_, ?_⟩
  · intro k v hv
    rw [hset]
    exact lookupTag_mergoMerge_some hv
  · intro k v hk hv
    rw [hset, lookupTag_mergoMerge_none hk]
    exact hv
  · intro r hr
    exact getD_set_ne h t r _ hr
  · intro k v hk hv
    have hlen : t < ((resourceTags h t b).1).length := by
      show t < (h.set t _).length
      simpa using ht
    have hset₂ : ((resourceTags ((resourceTags h t b).1) t b₂).1).getD t [] =
        mergoMerge (((resourceTags h t b).1).getD t []) b₂ :=
      getD_set_self _ t _ hlen
    rw [hset₂]
    refine lookupTag_mergoMerge_some ?_
    rw [hset, lookupTag_mergoMerge_none hk]
    exact hv

theorem resourceTags_mutates_shared_map_witness :
    (resourceTags [([] : TagMap)] 0 [("Name", "X VPC")]).2 = 0 ∧
    lookupTag (((resourceTags ((resourceTags [([] : TagMap)] 0
        [("Name", "X VPC")]).1) 0 [("Name", "Y Gateway")]).1).getD 0 [])
      "Name" = some "X VPC" := by
  have h := resourceTags_mutates_shared_map [([] : TagMap)] 0
    [("Name", "X VPC")] [("Name", "Y Gateway")] (by decide)
  exact ⟨h.1, h.2.2.2.2 "Name" "X VPC" (by decide) (by decide)⟩
